import Mathlib

/-!
Verification of the compute-trade equilibrium solver of this repository.

The definitions below are a shallow embedding of the numeric logic of
`Programs/add_calibration_v21.py` (the capacity-constrained market clearer
`solve_capacity_equilibrium`, its sensitivity twin `_solve_mini`, and the
cost model `recompute_costs`) and of `Programs/calibrate_model_v3.py`
(the delivered-cost formula `delivered_cost`, `get_latency`, the per-country
cost formula, and the inference sourcing-selection loop).

Python floats are modelled as exact rationals (ℚ): every claim under
examination is about the branch structure and algebra of the code, not
about rounding.  Python dicts keyed by ISO3 codes are modelled as
association lists in insertion order; iteration over `dc_k` is a list of
keys.  A Python `for ... in range(30)` with `break` is fuel recursion.
Definitions named with a `Spec` suffix are modelled from the wording of
the specification or claim (for refinement comparison); everything else
is translated from the source.
-/

attribute [local semireducible] Rat.add Rat.mul Rat.sub Rat.inv Rat.ofScientific

/-- ALPHA = 0.50, the bulk/training demand-share constant (add_calibration_v21.py line 69). -/
def ALPHA : ℚ := 1/2

/-- Q_TOTAL = 60 billion GPU-hours (add_calibration_v21.py line 73). -/
def Q_TOTAL : ℚ := 60000000000

/-- Convergence tolerance 0.0001 of the fixed-point loop (v21 lines 155, 4874). -/
def TOL : ℚ := 1/10000

/-- TAU = 0.0008 per ms, latency degradation rate (calibrate_model_v3.py line 50). -/
def TAU : ℚ := 8/10000

/-- DOMESTIC_LATENCY_DEFAULT = 5.0 ms (calibrate_model_v3.py line 56). -/
def DOMESTIC_LATENCY_DEFAULT : ℚ := 5

/-- GPU_PRICE = 25000 (v21 line 59, v3 line 34). -/
def GPU_PRICE : ℚ := 25000

/-- GPU_LIFE = 3 years (v21 line 60). -/
def GPU_LIFE : ℚ := 3

/-- GPU_UTIL = 0.70 (v21 line 61). -/
def GPU_UTIL : ℚ := 7/10

/-- H_YR = 365.25 * 24 = 8766 hours per year (v21 line 63). -/
def H_YR : ℚ := 8766

/-- PHI = 1.08, base PUE (v21 line 55). -/
def PHI : ℚ := 108/100

/-- DELTA_PUE = 0.015 per degree C (v21 line 56). -/
def DELTA_PUE : ℚ := 15/1000

/-- THETA_REF = 15.0 degrees C (v21 line 57, v3 line 43). -/
def THETA_REF : ℚ := 15

/-- GAMMA = 0.700 kW GPU power draw (v21 line 58). -/
def GAMMA : ℚ := 7/10

/-- ETA = 0.15, amortized networking cost per GPU-hour (v21 line 66). -/
def ETA : ℚ := 15/100

/-- PUE_BASE = 1.08 (calibrate_model_v3.py line 42). -/
def PUE_BASE : ℚ := 108/100

/-- PUE_SLOPE = 0.015 (calibrate_model_v3.py line 43). -/
def PUE_SLOPE : ℚ := 15/1000

/-- GPU_TDP_KW = 0.700 (calibrate_model_v3.py line 32). -/
def GPU_TDP_KW : ℚ := 7/10

/-- GPU_TDP_W = 700 (calibrate_model_v3.py line 33). -/
def GPU_TDP_W : ℚ := 700

/-- GPU_UTIL_V3 = 0.90 (calibrate_model_v3.py line 36). -/
def GPU_UTIL_V3 : ℚ := 9/10

/-- GPU_HOURS = GPU_LIFE_YR * 365.25 * 24 * GPU_UTIL = 3 * 8766 * 0.9 (v3 line 37). -/
def GPU_HOURS : ℚ := 3 * 8766 * (9/10)

/-- R_HARDWARE = GPU_PRICE / GPU_HOURS (calibrate_model_v3.py line 38). -/
def R_HARDWARE : ℚ := 25000 / GPU_HOURS

/-- DC_LIFE_YR = 15 (calibrate_model_v3.py line 46). -/
def DC_LIFE_YR : ℚ := 15

/-- Association-list lookup, modelling Python dict lookup (first binding wins). -/
def alookup {α β : Type} [DecidableEq α] : List (α × β) → α → Option β
  | [], _ => none
  | (a, b) :: t, k => if a = k then some b else alookup t k

/-- One entry of the supply stack: a `(iso_j, c_j, k_j)` triple of
`supply_stack` in add_calibration_v21.py (seller id, unit cost, capacity ceiling). -/
structure Seller where
  iso : String
  cost : ℚ
  cap : ℚ
deriving DecidableEq

/-- The inputs of `solve_capacity_equilibrium` (and, with `lam = 0`, of
`_solve_mini`): the cost-sorted supply stack, the buyer list `dc_k`, the
cost dict `costs_dict`, the demand-weight dict `omega`, the excluded set
`sanctioned`, and the sovereignty markup `lam`. -/
structure MarketIn where
  stack : List Seller
  dcK : List String
  costs : List (String × ℚ)
  omega : List (String × ℚ)
  sanctioned : List String
  lam : ℚ
deriving DecidableEq

/-- State of the fixed-point loop: trial price `p_T`, marginal index `m_T`,
and export demand `Q_TX` (all three survive the loop in the source). -/
structure LoopSt where
  p : ℚ
  m : ℕ
  q : ℚ
deriving DecidableEq

/-- The tuple returned by `solve_capacity_equilibrium`:
`p_T, m_T, shares, hhi, mu, ls_cap, len(shares)` (v21 line 4912). -/
structure EqResult where
  p_T : ℚ
  m_T : ℕ
  shares : List (String × ℚ)
  hhi : ℚ
  mu : List (String × ℚ)
  lsCap : List (String × ℚ)
  nExporters : ℕ
deriving DecidableEq

/-- Export demand `Q_TX` of one loop iteration (v21 lines 4858-4863):
sum over `dc_k` of `ALPHA * omega.get(iso, 0) * Q_TOTAL` for buyers present
in `costs_dict` with `c_k > (1 + lam) * p_T`.  Rational addition is
associative, so the running-total accumulation of the source is written as
structural recursion. -/
def exportDemand (costs omega : List (String × ℚ)) (lam p : ℚ) : List String → ℚ
  | [] => 0
  | iso :: rest =>
    (match alookup costs iso with
     | some ck => if (1 + lam) * p < ck then ALPHA * ((alookup omega iso).getD 0) * Q_TOTAL else 0
     | none => 0) + exportDemand costs omega lam p rest

/-- Export demand of a market at trial price `p`. -/
def exportDemandM (mk : MarketIn) (p : ℚ) : ℚ :=
  exportDemand mk.costs mk.omega mk.lam p mk.dcK

/-- Walk of the supply stack locating the marginal seller (v21 lines
4864-4872): skip sanctioned sellers, accumulate `k_j * ALPHA`, and return
the first `(c_j, idx)` with `cum_cap >= Q_TX and Q_TX > 0`.  `idx` counts
all stack entries, sanctioned included, as Python `enumerate` does. -/
def findMarginalGo (sanc : List String) (q : ℚ) : List Seller → ℚ → ℕ → Option (ℚ × ℕ)
  | [], _, _ => none
  | s :: rest, cum, idx =>
    if s.iso ∈ sanc then findMarginalGo sanc q rest cum (idx + 1)
    else
      if q ≤ cum + s.cap * ALPHA ∧ 0 < q then some (s.cost, idx)
      else findMarginalGo sanc q rest (cum + s.cap * ALPHA) (idx + 1)

/-- Marginal-seller search of a market for export demand `q`. -/
def findMarginalM (mk : MarketIn) (q : ℚ) : Option (ℚ × ℕ) :=
  findMarginalGo mk.sanctioned q mk.stack 0 0

/-- The `for _ in range(30)` fixed-point loop (v21 lines 4856-4879) on
fuel.  Each iteration recomputes `Q_TX`, finds the marginal seller, and
either breaks on `abs(p_T_new - p_T) < 0.0001` or continues with the new
trial price; when no marginal seller is found the trial price is kept.
The boolean of the result records whether the tolerance `break` fired
(the source itself keeps no such flag: see claim C3). -/
def loopGo (mk : MarketIn) : ℕ → LoopSt → LoopSt × Bool
  | 0, st => (st, false)
  | n + 1, st =>
    let q := exportDemandM mk st.p
    match findMarginalM mk q with
    | some pi =>
      if abs (pi.1 - st.p) < TOL then (⟨pi.1, pi.2, q⟩, true)
      else loopGo mk n ⟨pi.1, pi.2, q⟩
    | none => loopGo mk n ⟨st.p, st.m, q⟩

/-- Greedy cheapest-first fill (v21 lines 4882-4894): skip sanctioned
sellers, stop at the first seller with `c_j > p_T`, allocate
`ca = min(k_j * ALPHA, remaining)` when positive, and stop once
`remaining <= 0`. -/
def greedyFill (sanc : List String) (p : ℚ) : List Seller → ℚ → List (String × ℚ)
  | [], _ => []
  | s :: rest, remaining =>
    if s.iso ∈ sanc then greedyFill sanc p rest remaining
    else if p < s.cost then []
    else
      let ca := min (s.cap * ALPHA) remaining
      if 0 < ca then
        if remaining - ca ≤ 0 then [(s.iso, ca)]
        else (s.iso, ca) :: greedyFill sanc p rest (remaining - ca)
      else
        if remaining ≤ 0 then [] else greedyFill sanc p rest remaining

/-- Herfindahl index of the allocation (v21 lines 4895-4896):
`sum((s / total)^2)` over the shares when the total is positive, else 1.0. -/
def hhiOf (sh : List (String × ℚ)) : ℚ :=
  let total := (sh.map (fun e => e.2)).sum
  if 0 < total then (sh.map (fun e => (e.2 / total) ^ 2)).sum else 1

/-- Shadow values `mu` (v21 lines 4898-4905): for every non-sanctioned
seller with `c_j < p_T` whose allocation reaches `k_j * ALPHA * 0.99`,
record `p_T - c_j`. -/
def shadowVals (sanc : List String) (p : ℚ) (shares : List (String × ℚ)) :
    List Seller → List (String × ℚ)
  | [] => []
  | s :: rest =>
    if s.iso ∈ sanc then shadowVals sanc p shares rest
    else if s.cost < p then
      if s.cap * ALPHA * (99/100) ≤ (alookup shares s.iso).getD 0 then
        (s.iso, p - s.cost) :: shadowVals sanc p shares rest
      else shadowVals sanc p shares rest
    else shadowVals sanc p shares rest

/-- The dict `ls_cap = {iso: c_k / p_T - 1}` (v21 line 4907). -/
def lsCapOf (costs : List (String × ℚ)) (p : ℚ) : List (String × ℚ) :=
  costs.map (fun e => (e.1, e.2 / p - 1))

/-- Shallow embedding of `solve_capacity_equilibrium` (add_calibration_v21.py
lines 4851-4912); with `lam = 0` it is also `_solve_mini` (lines 136-177,
which returns the `(p_T, len(shares), hhi)` projection).  `supply_stack[0][1]`
raises on an empty stack, modelled as `none`. -/
def solve_capacity_equilibrium (mk : MarketIn) : Option EqResult :=
  match mk.stack with
  | [] => none
  | s0 :: _ =>
    let st := (loopGo mk 30 ⟨s0.cost, 0, 0⟩).1
    let sh := greedyFill mk.sanctioned st.p mk.stack st.q
    some ⟨st.p, st.m, sh, hhiOf sh, shadowVals mk.sanctioned st.p sh mk.stack,
          lsCapOf mk.costs st.p, sh.length⟩

/-- Instrumented convergence status: whether the tolerance `break` of the
fixed-point loop fired before the 30-iteration budget ran out.  The source
computes no such value; it is exposed here to settle claim C3. -/
def solveConverged (mk : MarketIn) : Bool :=
  match mk.stack with
  | [] => false
  | s0 :: _ => (loopGo mk 30 ⟨s0.cost, 0, 0⟩).2

/-- Boolean check that a supply stack is sorted ascending by unit cost
(the callers always build it with `sorted(..., key=lambda x: x[1])`). -/
def sortedCosts : List Seller → Bool
  | [] => true
  | [_] => true
  | a :: b :: t => decide (a.cost ≤ b.cost) && sortedCosts (b :: t)

/-- Minimum unit cost of a seller list (the cheapest seller's cost; 0 for
an empty list).  Used by the claim-worded solver description. -/
def minCostList : List Seller → ℚ
  | [] => 0
  | [s] => s.cost
  | s :: rest => min s.cost (minCostList rest)

/-- Modelled from the claim wording of C1: export demand is the sum of the
bulk demand shares of exactly those buyers whose own domestic unit cost
exceeds `(1 + markup) * trial_price`, stated as filter-then-sum. -/
def exportDemandSpec (costs omega : List (String × ℚ)) (lam p : ℚ) (dcK : List String) : ℚ :=
  ((dcK.filter fun iso =>
      match alookup costs iso with
      | some ck => decide ((1 + lam) * p < ck)
      | none => false).map
    fun iso => ALPHA * ((alookup omega iso).getD 0) * Q_TOTAL).sum

/-- Modelled from the claim wording of C1: walk a (already excluded-seller
free) supply curve accumulating available bulk capacity until it meets or
exceeds a positive export demand, returning the unit cost of the seller at
which the threshold is crossed. -/
def marginalSpecGo (q : ℚ) : List Seller → ℚ → Option ℚ
  | [], _ => none
  | s :: rest, cum =>
    if q ≤ cum + s.cap * ALPHA ∧ 0 < q then some s.cost
    else marginalSpecGo q rest (cum + s.cap * ALPHA)

/-- Modelled from the claim wording of C1: the supply-curve walk skips the
excluded sellers, expressed by filtering them away first. -/
def marginalSpecM (mk : MarketIn) (q : ℚ) : Option ℚ :=
  marginalSpecGo q (mk.stack.filter fun s => decide (s.iso ∉ mk.sanctioned)) 0

/-- Modelled from the claim wording of C1: the bounded trial-price
iteration, stopping when consecutive trial prices differ by less than the
tolerance or when the fuel (iteration budget) is exhausted. -/
def specLoop (mk : MarketIn) : ℕ → ℚ → ℚ
  | 0, p => p
  | n + 1, p =>
    let q := exportDemandSpec mk.costs mk.omega mk.lam p mk.dcK
    match marginalSpecM mk q with
    | some c => if abs (c - p) < TOL then c else specLoop mk n c
    | none => specLoop mk n p

/-- Modelled from the claim wording of C1: the clearing price obtained by
initializing the trial price to the cheapest seller's cost and iterating
at most 30 times. -/
def specPrice (mk : MarketIn) : ℚ :=
  specLoop mk 30 (minCostList mk.stack)

/-- Scales a seller's capacity ceiling by `ALPHA`, the bulk-class supply
share (used to state claim C10). -/
def scaleCap (s : Seller) : Seller :=
  ⟨s.iso, s.cost, s.cap * ALPHA⟩

/-- Variant of the marginal-seller walk that accumulates the raw capacity
field of its input with no `ALPHA` factor (used to state claim C10). -/
def findMarginalRawGo (sanc : List String) (q : ℚ) : List Seller → ℚ → ℕ → Option (ℚ × ℕ)
  | [], _, _ => none
  | s :: rest, cum, idx =>
    if s.iso ∈ sanc then findMarginalRawGo sanc q rest cum (idx + 1)
    else
      if q ≤ cum + s.cap ∧ 0 < q then some (s.cost, idx)
      else findMarginalRawGo sanc q rest (cum + s.cap) (idx + 1)

/-- Variant of the greedy fill that allocates up to the raw capacity field
of its input with no `ALPHA` factor (used to state claim C10). -/
def greedyFillRaw (sanc : List String) (p : ℚ) : List Seller → ℚ → List (String × ℚ)
  | [], _ => []
  | s :: rest, remaining =>
    if s.iso ∈ sanc then greedyFillRaw sanc p rest remaining
    else if p < s.cost then []
    else
      let ca := min s.cap remaining
      if 0 < ca then
        if remaining - ca ≤ 0 then [(s.iso, ca)]
        else (s.iso, ca) :: greedyFillRaw sanc p rest (remaining - ca)
      else
        if remaining ≤ 0 then [] else greedyFillRaw sanc p rest remaining

/-- One row of the calibration CSV as consumed by `recompute_costs`
(add_calibration_v21.py lines 105-117): iso3 code, electricity price,
summer peak temperature, and pre-amortized construction cost. -/
structure CalRow where
  iso3 : String
  p_E_usd_kwh : ℚ
  theta_summer_C : ℚ
  c_j_construction : ℚ
deriving DecidableEq

/-- Python `x or default` on an optional numeric override: `None` and the
falsy value `0` both select the default (v21 lines 101-102). -/
def pyOr (o : Option ℚ) (dflt : ℚ) : ℚ :=
  match o with
  | none => dflt
  | some x => if x = 0 then dflt else x

/-- Shallow embedding of `recompute_costs` (add_calibration_v21.py lines
98-118).  `subsidy_adj = []` models passing `None` (both mean: no
override).  The Python body can raise no exception on any of these inputs:
after the `or` defaults the only division has a nonzero denominator
whenever `gpu_util` is not the rational 0, and that case is replaced by
the default, so the total function below is exact. -/
def recompute_costs (cal : List CalRow) (gpu_price gpu_util : Option ℚ)
    (p_E_delta : ℚ) (pue_cap : Option ℚ) (subsidy_adj : List (String × ℚ)) :
    List (String × ℚ) :=
  let gp := pyOr gpu_price GPU_PRICE
  let gu := pyOr gpu_util GPU_UTIL
  let rho := gp / (GPU_LIFE * H_YR * gu)
  cal.map fun row =>
    let p_E := (alookup subsidy_adj row.iso3).getD row.p_E_usd_kwh + p_E_delta
    let pue0 := PHI + DELTA_PUE * max 0 (row.theta_summer_C - THETA_REF)
    let pue := match pue_cap with
               | none => pue0
               | some cap => min pue0 cap
    let c_elec := pue * GAMMA * p_E
    (row.iso3, c_elec + rho + ETA + row.c_j_construction)

/-- Per-country unit cost of the v3 calibration loop (calibrate_model_v3.py
lines 162-180): `c_total = c_elec + c_hw + c_constr` with
`pue = PUE_BASE + PUE_SLOPE * max(0, theta - THETA_REF)`,
`c_elec = pue * GPU_TDP_KW * p_E`, `c_hw = R_HARDWARE`, and
`c_constr = GPU_TDP_W * p_L / (DC_LIFE_YR * H_YR)`.  The loop performs no
input validation: the formula is applied to whatever values the CSVs hold. -/
def c_total_v3 (p_E theta p_L : ℚ) : ℚ :=
  let pue := PUE_BASE + PUE_SLOPE * max 0 (theta - THETA_REF)
  pue * GPU_TDP_KW * p_E + R_HARDWARE + GPU_TDP_W * p_L / (DC_LIFE_YR * H_YR)

/-- Shallow embedding of `delivered_cost` (calibrate_model_v3.py lines
230-231): `(1 + tau * l_jk) * c_j`, with no branch of any kind on the
latency value. -/
def delivered_cost (tau l_jk c_j : ℚ) : ℚ :=
  (1 + tau * l_jk) * c_j

/-- Shallow embedding of `get_latency` (calibrate_model_v3.py lines
234-243): domestic pairs default to `DOMESTIC_LATENCY_DEFAULT` when
unmeasured; foreign pairs fall back to the reverse direction and yield
`none` when both directions are missing. -/
def get_latency (table : List ((String × String) × ℚ)) (j k : String) : Option ℚ :=
  if j = k then some ((alookup table (j, k)).getD DOMESTIC_LATENCY_DEFAULT)
  else
    match alookup table (j, k) with
    | some l => some l
    | none => alookup table (k, j)

/-- Domestic inference price `P_I_domestic` of buyer `k` (calibrate_model_v3.py
lines 255-259): `l_kk = get_latency(k, k) or DOMESTIC_LATENCY_DEFAULT`
(Python truthiness: a stored 0.0 also falls back to the default), then
`(1 + TAU * l_kk) * c_k`. -/
def domInfCost (k : String) (costs : String → ℚ) (table : List ((String × String) × ℚ)) : ℚ :=
  let l0 := (alookup table (k, k)).getD DOMESTIC_LATENCY_DEFAULT
  let lkk := if l0 = 0 then DOMESTIC_LATENCY_DEFAULT else l0
  (1 + TAU * lkk) * costs k

/-- The body of the `best_inf` selection loop (calibrate_model_v3.py lines
275-284): candidates equal to the buyer are skipped, candidates with no
latency are skipped, and a candidate replaces the incumbent only with a
strictly smaller delivered cost. -/
def bestInfGo (k : String) (costs : String → ℚ) (table : List ((String × String) × ℚ)) :
    List String → String × ℚ → String × ℚ
  | [], best => best
  | j :: rest, best =>
    if j = k then bestInfGo k costs table rest best
    else
      match get_latency table j k with
      | none => bestInfGo k costs table rest best
      | some l =>
        let c := delivered_cost TAU l (costs j)
        if c < best.2 then bestInfGo k costs table rest (j, c)
        else bestInfGo k costs table rest best

/-- Shallow embedding of the inference sourcing selection
(calibrate_model_v3.py lines 272-284): the incumbent starts as the buyer
itself at its domestic inference price, then every candidate is examined
in order. -/
def bestInf (k : String) (cands : List String) (costs : String → ℚ)
    (table : List ((String × String) × ℚ)) : String × ℚ :=
  bestInfGo k costs table cands (k, domInfCost k costs table)

/-- Market with a two-cycle in the trial price: at price 1 both buyers are
importers (demand 25, marginal seller "B" at cost 2) and at price 2 only
"Y" is an importer (demand 5, marginal seller "A" at cost 1), so the loop
oscillates and exhausts its 30-iteration budget. -/
def mktOsc : MarketIn :=
  ⟨[⟨"A", 1, 20⟩, ⟨"B", 2, 200⟩], ["X", "Y"],
   [("X", 3/2), ("Y", 3)], [("X", 1/1500000000), ("Y", 1/6000000000)], [], 0⟩

/-- The same market with buyer "X" given zero demand weight: demand is 5
at every price, the marginal seller is "A" at the initial price, and the
loop converges on its first iteration. -/
def mktConv : MarketIn :=
  ⟨[⟨"A", 1, 20⟩, ⟨"B", 2, 200⟩], ["X", "Y"],
   [("X", 3/2), ("Y", 3)], [("X", 0), ("Y", 1/6000000000)], [], 0⟩

/-- Market whose only seller is sanctioned while export demand is positive
(buyer cost 3 against cheapest cost 1). -/
def mktAllSanc : MarketIn :=
  ⟨[⟨"A", 1, 20⟩], ["Y"], [("Y", 3)], [("Y", 1/6000000000)], ["A"], 0⟩

/-- Market whose only seller is sanctioned and whose only buyer is cheaper
than every seller, so export demand is zero at the initial trial price. -/
def mktSancZero : MarketIn :=
  ⟨[⟨"A", 1, 20⟩], ["Y"], [("Y", 1/2)], [("Y", 1/3000000000)], ["A"], 0⟩

/-- Market with zero export demand and no sanctions: the buyer's domestic
cost 1/2 is below the only seller's cost 1, so nobody imports. -/
def mktZeroD : MarketIn :=
  ⟨[⟨"A", 1, 20⟩], ["Y"], [("Y", 1/2)], [("Y", 1/3000000000)], [], 0⟩

/-- Concrete scenario 1 of the specification: sellers at costs 1.00 and
1.20 with bulk capacities 1 and 2, export demand 1.5; the clearing price
is 1.20, seller "A" is allocated 1 (shadow value 0.20) and seller "B" 0.5. -/
def mktScn1 : MarketIn :=
  ⟨[⟨"A", 1, 2⟩, ⟨"B", 6/5, 4⟩], ["Z"], [("Z", 2)], [("Z", 1/20000000000)], [], 0⟩

/-- Market whose single seller is exactly saturated by export demand: the
demand 10 equals the seller's available bulk capacity `ALPHA * 20`, and the
seller is marginal (its cost is the clearing price). -/
def mktSat : MarketIn :=
  ⟨[⟨"A", 1, 20⟩], ["Y"], [("Y", 3)], [("Y", 1/3000000000)], [], 0⟩

/-- The solver output on `mktScn1` (checked by kernel computation below). -/
def rScn1 : EqResult :=
  ⟨6/5, 1, [("A", 1), ("B", 1/2)], 5/9, [("A", 1/5)], [("Z", 2/3)], 2⟩

/-- The solver output on `mktZeroD` (checked by kernel computation below). -/
def rZeroD : EqResult :=
  ⟨1, 0, [], 1, [], [("Y", -(1/2))], 0⟩

/-- The solver output on `mktAllSanc` (checked by kernel computation below). -/
def rAllSanc : EqResult :=
  ⟨1, 0, [], 1, [], [("Y", 2)], 0⟩

/-- The solver output on `mktSat` (checked by kernel computation below). -/
def rSat : EqResult :=
  ⟨1, 0, [("A", 10)], 1, [], [("Y", 2)], 1⟩

theorem exportDemand_eq_spec (costs omega : List (String × ℚ)) (lam p : ℚ) :
    ∀ dcK, exportDemand costs omega lam p dcK = exportDemandSpec costs omega lam p dcK := by
  intro dcK
  induction dcK with
  | nil => simp [exportDemand, exportDemandSpec]
  | cons iso rest ih =>
    rw [exportDemand, ih]
    unfold exportDemandSpec
    rw [List.filter_cons]
    cases h : alookup costs iso with
    | none => simp [h]
    | some ck =>
      by_cases hc : (1 + lam) * p < ck
      · simp [h, hc]
      · simp [h, hc]

theorem findMarginal_map_spec (sanc : List String) (q : ℚ) :
    ∀ (stack : List Seller) (cum : ℚ) (idx : ℕ),
      (findMarginalGo sanc q stack cum idx).map Prod.fst =
        marginalSpecGo q (stack.filter fun s => decide (s.iso ∉ sanc)) cum := by
  intro stack
  induction stack with
  | nil => intro cum idx; rfl
  | cons s rest ih =>
    intro cum idx
    by_cases hs : s.iso ∈ sanc
    · simp only [findMarginalGo, if_pos hs, List.filter_cons]
      simp only [hs, not_true_eq_false, decide_eq_true_eq, if_false]
      exact ih cum (idx + 1)
    · by_cases hq : q ≤ cum + s.cap * ALPHA ∧ 0 < q
      · simp only [findMarginalGo, if_neg hs, if_pos hq, List.filter_cons]
        simp only [hs, not_false_eq_true, decide_eq_true_eq, if_true, marginalSpecGo,
          if_pos hq]
        rfl
      · simp only [findMarginalGo, if_neg hs, if_neg hq, List.filter_cons]
        simp only [hs, not_false_eq_true, decide_eq_true_eq, if_true, marginalSpecGo,
          if_neg hq]
        exact ih (cum + s.cap * ALPHA) (idx + 1)

theorem loopGo_price_spec (mk : MarketIn) :
    ∀ (n : ℕ) (p : ℚ) (m : ℕ) (q : ℚ),
      ((loopGo mk n ⟨p, m, q⟩).1).p = specLoop mk n p := by
  intro n
  induction n with
  | zero => intro p m q; rfl
  | succ k ih =>
    intro p m q
    have hd : exportDemandM mk p = exportDemandSpec mk.costs mk.omega mk.lam p mk.dcK :=
      exportDemand_eq_spec mk.costs mk.omega mk.lam p mk.dcK
    have hmar := findMarginal_map_spec mk.sanctioned (exportDemandM mk p) mk.stack 0 0
    rw [loopGo, specLoop, ← hd]
    cases hm : findMarginalM mk (exportDemandM mk p) with
    | none =>
      have hms : marginalSpecM mk (exportDemandM mk p) = none := by
        rw [marginalSpecM, ← hmar, findMarginalM] at *
        rw [hm]
        rfl
      rw [hms]
      exact ih p m (exportDemandM mk p)
    | some pi =>
      have hms : marginalSpecM mk (exportDemandM mk p) = some pi.1 := by
        rw [marginalSpecM, ← hmar, findMarginalM] at *
        rw [hm]
        rfl
      rw [hms]
      by_cases ht : abs (pi.1 - p) < TOL
      · simp [ht]
      · simp only [if_neg ht]
        exact ih pi.1 pi.2 (exportDemandM mk p)

theorem sorted_head_le :
    ∀ (t : List Seller) (s : Seller), sortedCosts (s :: t) = true →
      ∀ x ∈ s :: t, s.cost ≤ x.cost := by
  intro t
  induction t with
  | nil =>
    intro s _ x hx
    rw [List.mem_singleton] at hx
    exact hx ▸ le_refl _
  | cons b t' ih =>
    intro s hs x hx
    rw [show sortedCosts (s :: b :: t') =
        (decide (s.cost ≤ b.cost) && sortedCosts (b :: t')) from rfl,
      Bool.and_eq_true, decide_eq_true_eq] at hs
    rcases List.mem_cons.mp hx with rfl | hx'
    · exact le_refl _
    · exact le_trans hs.1 (ih b hs.2 x hx')

theorem minCostList_of_sorted :
    ∀ (t : List Seller) (s : Seller), sortedCosts (s :: t) = true →
      minCostList (s :: t) = s.cost := by
  intro t
  induction t with
  | nil => intro s _; rfl
  | cons b t' ih =>
    intro s hs
    rw [show sortedCosts (s :: b :: t') =
        (decide (s.cost ≤ b.cost) && sortedCosts (b :: t')) from rfl,
      Bool.and_eq_true, decide_eq_true_eq] at hs
    rw [show minCostList (s :: b :: t') = min s.cost (minCostList (b :: t')) from rfl,
      ih b hs.2]
    exact min_eq_left hs.1


/-- C1: for every input list of sellers and every set of buyer demand
weights, `solve_capacity_equilibrium` initializes the trial clearing price
to the cheapest seller's cost and iterates at most 30 times; each
iteration computes export demand as the sum of the bulk demand shares of
exactly those buyers whose own domestic unit cost exceeds
`(1 + markup) * trial_price` (`exportDemandSpec`), walks the cost-sorted
supply curve skipping excluded sellers and sets the new trial price to the
unit cost of the first seller at which cumulative available capacity meets
or exceeds the (positive) export demand (`marginalSpecM`), and stops when
consecutive trial prices differ by less than the tolerance or the budget
is exhausted (`specLoop`): the clearing price of the code equals the price
of this claim-worded description. -/
theorem c1_clearing_loop (mk : MarketIn) (s0 : Seller) (rest : List Seller)
    (hstack : mk.stack = s0 :: rest) (hsort : sortedCosts mk.stack = true) :
    (solve_capacity_equilibrium mk).map (fun r => r.p_T) = some (specPrice mk) := by
  have hmin : minCostList mk.stack = s0.cost := by
    rw [hstack]
    exact minCostList_of_sorted rest s0 (hstack ▸ hsort)
  have hsolve : solve_capacity_equilibrium mk =
      some ⟨((loopGo mk 30 ⟨s0.cost, 0, 0⟩).1).p, ((loopGo mk 30 ⟨s0.cost, 0, 0⟩).1).m,
        greedyFill mk.sanctioned ((loopGo mk 30 ⟨s0.cost, 0, 0⟩).1).p mk.stack
          ((loopGo mk 30 ⟨s0.cost, 0, 0⟩).1).q,
        hhiOf (greedyFill mk.sanctioned ((loopGo mk 30 ⟨s0.cost, 0, 0⟩).1).p mk.stack
          ((loopGo mk 30 ⟨s0.cost, 0, 0⟩).1).q),
        shadowVals mk.sanctioned ((loopGo mk 30 ⟨s0.cost, 0, 0⟩).1).p
          (greedyFill mk.sanctioned ((loopGo mk 30 ⟨s0.cost, 0, 0⟩).1).p mk.stack
            ((loopGo mk 30 ⟨s0.cost, 0, 0⟩).1).q) mk.stack,
        lsCapOf mk.costs ((loopGo mk 30 ⟨s0.cost, 0, 0⟩).1).p,
        (greedyFill mk.sanctioned ((loopGo mk 30 ⟨s0.cost, 0, 0⟩).1).p mk.stack
          ((loopGo mk 30 ⟨s0.cost, 0, 0⟩).1).q).length⟩ := by
    rw [solve_capacity_equilibrium, hstack]
  rw [hsolve, Option.map_some']
  rw [specPrice, hmin, ← loopGo_price_spec mk 30 s0.cost 0 0]

/-- Witness for C1 at the specification's concrete scenario 1. -/
theorem c1_clearing_loop_w :
    (solve_capacity_equilibrium mktScn1).map (fun r => r.p_T) = some (specPrice mktScn1) :=
  c1_clearing_loop mktScn1 ⟨"A", 1, 2⟩ [⟨"B", 6/5, 4⟩] rfl (by decide)

theorem findMarginalGo_nonpos (sanc : List String) (q : ℚ) (hq : ¬ 0 < q) :
    ∀ (stack : List Seller) (cum : ℚ) (idx : ℕ),
      findMarginalGo sanc q stack cum idx = none := by
  intro stack
  induction stack with
  | nil => intro cum idx; rfl
  | cons s rest ih =>
    intro cum idx
    by_cases hs : s.iso ∈ sanc
    · simp only [findMarginalGo, if_pos hs]
      exact ih _ _
    · simp only [findMarginalGo, if_neg hs, if_neg (fun h : _ ∧ 0 < q => hq h.2)]
      exact ih _ _

theorem loopGo_zero_demand (mk : MarketIn) (p : ℚ) (hd : exportDemandM mk p = 0) :
    ∀ n, n ≠ 0 → ∀ (m : ℕ) (q : ℚ), loopGo mk n ⟨p, m, q⟩ = (⟨p, m, 0⟩, false) := by
  have hnone : findMarginalM mk 0 = none :=
    findMarginalGo_nonpos _ _ (by norm_num) _ _ _
  intro n
  induction n with
  | zero => intro h; exact absurd rfl h
  | succ k ih =>
    intro _ m q
    simp only [loopGo, hd, hnone]
    cases k with
    | zero => rfl
    | succ k2 => exact ih (Nat.succ_ne_zero _) m 0

theorem findMarginalGo_allSanc (sanc : List String) (q : ℚ) :
    ∀ (stack : List Seller), (∀ s ∈ stack, s.iso ∈ sanc) →
      ∀ (cum : ℚ) (idx : ℕ), findMarginalGo sanc q stack cum idx = none := by
  intro stack
  induction stack with
  | nil => intro _ cum idx; rfl
  | cons s rest ih =>
    intro hAll cum idx
    have hs : s.iso ∈ sanc := hAll s (List.mem_cons_self s rest)
    simp only [findMarginalGo, if_pos hs]
    exact ih (fun t ht => hAll t (List.mem_cons_of_mem s ht)) _ _

theorem greedyFill_allSanc (sanc : List String) (p : ℚ) :
    ∀ (stack : List Seller), (∀ s ∈ stack, s.iso ∈ sanc) →
      ∀ rem, greedyFill sanc p stack rem = [] := by
  intro stack
  induction stack with
  | nil => intro _ rem; rfl
  | cons s rest ih =>
    intro hAll rem
    have hs : s.iso ∈ sanc := hAll s (List.mem_cons_self s rest)
    simp only [greedyFill, if_pos hs]
    exact ih (fun t ht => hAll t (List.mem_cons_of_mem s ht)) rem

theorem shadowVals_allSanc (sanc : List String) (p : ℚ) (sh : List (String × ℚ)) :
    ∀ (stack : List Seller), (∀ s ∈ stack, s.iso ∈ sanc) →
      shadowVals sanc p sh stack = [] := by
  intro stack
  induction stack with
  | nil => intro _; rfl
  | cons s rest ih =>
    intro hAll
    have hs : s.iso ∈ sanc := hAll s (List.mem_cons_self s rest)
    simp only [shadowVals, if_pos hs]
    exact ih (fun t ht => hAll t (List.mem_cons_of_mem s ht))

theorem loopGo_allSanc (mk : MarketIn) (hAll : ∀ s ∈ mk.stack, s.iso ∈ mk.sanctioned) :
    ∀ n, n ≠ 0 → ∀ (p : ℚ) (m : ℕ) (q : ℚ),
      loopGo mk n ⟨p, m, q⟩ = (⟨p, m, exportDemandM mk p⟩, false) := by
  have hnone : ∀ q', findMarginalM mk q' = none := fun q' =>
    findMarginalGo_allSanc _ _ _ hAll _ _
  intro n
  induction n with
  | zero => intro h; exact absurd rfl h
  | succ k ih =>
    intro _ p m q
    simp only [loopGo, hnone]
    cases k with
    | zero => rfl
    | succ k2 => exact ih (Nat.succ_ne_zero _) p m (exportDemandM mk p)

theorem greedyFill_nonpos (sanc : List String) (p : ℚ) :
    ∀ (stack : List Seller) (rem : ℚ), rem ≤ 0 → greedyFill sanc p stack rem = [] := by
  intro stack
  induction stack with
  | nil => intro rem _; rfl
  | cons s rest ih =>
    intro rem hrem
    by_cases hs : s.iso ∈ sanc
    · simp only [greedyFill, if_pos hs]
      exact ih rem hrem
    · by_cases hc : p < s.cost
      · simp only [greedyFill, if_neg hs, if_pos hc]
      · have hca : ¬ 0 < min (s.cap * ALPHA) rem :=
          not_lt.mpr (le_trans (min_le_right _ _) hrem)
        simp only [greedyFill, if_neg hs, if_neg hc, if_neg hca, if_pos hrem]

theorem shadowVals_notlt (sanc : List String) (p : ℚ) (sh : List (String × ℚ)) :
    ∀ (stack : List Seller), (∀ s ∈ stack, ¬ s.cost < p) →
      shadowVals sanc p sh stack = [] := by
  intro stack
  induction stack with
  | nil => intro _; rfl
  | cons s rest ih =>
    intro hAll
    have hrec := ih (fun t ht => hAll t (List.mem_cons_of_mem s ht))
    by_cases hs : s.iso ∈ sanc
    · simp only [shadowVals, if_pos hs]
      exact hrec
    · simp only [shadowVals, if_neg hs,
        if_neg (hAll s (List.mem_cons_self s rest))]
      exact hrec

/-- C2 counterexample: in `mktAllSanc` every seller is excluded
(sanctioned) while export demand is positive, yet
`solve_capacity_equilibrium` does not report a "no equilibrium" failure:
it returns an ordinary result whose clearing price is the (sanctioned)
cheapest seller's cost 1, refuting the claim that all-sellers-excluded
runs report no equilibrium rather than a price. -/
theorem c2_no_equilibrium_counterexample :
    solve_capacity_equilibrium mktAllSanc = some rAllSanc ∧
    rAllSanc.p_T = 1 ∧ exportDemandM mktAllSanc 1 = 5 := by decide

/-- C2 amended: with zero export demand at the initial trial price the
clearing price equals the cheapest seller's cost, nothing is allocated and
no seller is capacity-constrained (first conjunct, as claimed); but when
every seller is excluded the solver still returns the cheapest seller's
cost with an empty allocation instead of reporting "no equilibrium"
(second conjunct, replacing the claim's failure report). -/
theorem c2_degenerate_amended (mk : MarketIn) (s0 : Seller) (rest : List Seller)
    (hstack : mk.stack = s0 :: rest) (hsort : sortedCosts mk.stack = true) :
    (exportDemandM mk s0.cost = 0 →
      (solve_capacity_equilibrium mk).map (fun r => (r.p_T, r.shares, r.mu, r.hhi)) =
        some (s0.cost, [], [], 1)) ∧
    ((∀ s ∈ mk.stack, s.iso ∈ mk.sanctioned) →
      (solve_capacity_equilibrium mk).map (fun r => (r.p_T, r.shares, r.mu)) =
        some (s0.cost, [], [])) := by
  have hnotlt : ∀ s ∈ mk.stack, ¬ s.cost < s0.cost := fun s hs =>
    not_lt.mpr (sorted_head_le rest s0 (hstack ▸ hsort) s (hstack ▸ hs))
  constructor
  · intro hd
    have h30 := loopGo_zero_demand mk s0.cost hd 30 (by norm_num) 0 0
    have hfill : greedyFill mk.sanctioned s0.cost (s0 :: rest) 0 = [] :=
      greedyFill_nonpos _ _ _ _ le_rfl
    have hmu : shadowVals mk.sanctioned s0.cost ([] : List (String × ℚ)) (s0 :: rest) = [] :=
      shadowVals_notlt _ _ _ _ (hstack ▸ hnotlt)
    have hsolve : solve_capacity_equilibrium mk =
        some ⟨s0.cost, 0, [], 1, [], lsCapOf mk.costs s0.cost, 0⟩ := by
      rw [solve_capacity_equilibrium, hstack]
      simp only [h30, hfill, hmu, List.length_nil]
      norm_num [hhiOf]
    rw [hsolve, Option.map_some']
  · intro hAll
    have h30 := loopGo_allSanc mk hAll 30 (by norm_num) s0.cost 0 0
    have hfill : ∀ rem, greedyFill mk.sanctioned s0.cost (s0 :: rest) rem = [] :=
      greedyFill_allSanc _ _ _ (hstack ▸ hAll)
    have hmu : shadowVals mk.sanctioned s0.cost ([] : List (String × ℚ)) (s0 :: rest) = [] :=
      shadowVals_allSanc _ _ _ _ (hstack ▸ hAll)
    have hsolve : solve_capacity_equilibrium mk =
        some ⟨s0.cost, 0, [], 1, [], lsCapOf mk.costs s0.cost, 0⟩ := by
      rw [solve_capacity_equilibrium, hstack]
      simp only [h30, hfill, hmu, List.length_nil]
      norm_num [hhiOf]
    rw [hsolve, Option.map_some']

/-- Witness for C2 on `mktSancZero`, which has zero export demand and all
sellers sanctioned at once, so both parts of the amended statement apply. -/
theorem c2_degenerate_amended_w :
    (solve_capacity_equilibrium mktSancZero).map (fun r => (r.p_T, r.shares, r.mu, r.hhi)) =
      some (1, [], [], 1) ∧
    (solve_capacity_equilibrium mktSancZero).map (fun r => (r.p_T, r.shares, r.mu)) =
      some (1, [], []) :=
  ⟨(c2_degenerate_amended mktSancZero ⟨"A", 1, 20⟩ [] rfl (by decide)).1 (by decide),
   (c2_degenerate_amended mktSancZero ⟨"A", 1, 20⟩ [] rfl (by decide)).2 (by decide)⟩

/-- C3 counterexample: the markets `mktOsc` (whose trial price oscillates
between 1 and 2 and exhausts the 30-iteration budget) and `mktConv` (which
converges on its first iteration) produce bit-identical results from
`solve_capacity_equilibrium` — the same price, marginal index, shares,
concentration, shadow values and exporter count — although the
instrumented convergence status differs.  The returned value therefore
cannot let a caller distinguish "converged" from "iteration budget
exhausted", refuting the claim. -/
theorem c3_convergence_counterexample :
    solve_capacity_equilibrium mktOsc = solve_capacity_equilibrium mktConv ∧
    solveConverged mktOsc = false ∧ solveConverged mktConv = true := by decide

/-- C3 amended: for every market with a nonempty supply stack the solver
returns an ordinary result — the last trial price and the quantities
derived from it — carrying no convergence indicator; non-convergence
(including oscillation) is not reported as a distinct failure mode. -/
theorem c3_budget_amended (mk : MarketIn) (s0 : Seller) (rest : List Seller)
    (hstack : mk.stack = s0 :: rest) :
    (solve_capacity_equilibrium mk).isSome = true := by
  rw [solve_capacity_equilibrium, hstack]
  rfl

/-- Witness for C3 at the oscillating market. -/
theorem c3_budget_amended_w :
    (solve_capacity_equilibrium mktOsc).isSome = true :=
  c3_budget_amended mktOsc ⟨"A", 1, 20⟩ [⟨"B", 2, 200⟩] rfl

/-- C4: evaluation of `delivered_cost` at the failing input of the claim —
real-time service, buyer-seller latency 500 ms against the documented
300 ms ceiling, seller unit cost 1 — yields the ordinary finite delivered
cost 1.4 rather than an infeasible sentinel: the code contains no latency
ceiling (the paper text generated by add_calibration_v21.py lines
1533-1544 documents the intended rule `P_I(j, k) = ∞ if l_jk > l_bar`). -/
theorem c4_no_latency_ceiling : delivered_cost TAU 500 1 = 7/5 := by decide

/-- C5 counterexample: buyer "KAZ" whose only candidate seller "XYZ" has
no measured latency in either direction (infeasible as inference supplier)
is not reported as "unserved": the selection loop returns the buyer
itself, with its ordinary domestic delivered cost `(1 + TAU * 5) * 2`,
refuting the claim that the assignment never falls back to self. -/
theorem c5_unserved_counterexample :
    bestInf "KAZ" ["KAZ", "XYZ"] (fun j => if j = "XYZ" then 1 else 2) [] =
      ("KAZ", 251/125) := by decide

/-- C5 amended: whenever every candidate other than the buyer itself is
infeasible (its latency to the buyer is missing), the sourcing selection
returns the buyer assigned to itself at its domestic inference cost; no
"unserved" outcome exists in the code. -/
theorem c5_fallback_amended (k : String) (cands : List String) (costs : String → ℚ)
    (table : List ((String × String) × ℚ))
    (h : ∀ j ∈ cands, j ≠ k → get_latency table j k = none) :
    bestInf k cands costs table = (k, domInfCost k costs table) := by
  rw [bestInf]
  suffices hgen : ∀ (l : List String), (∀ j ∈ l, j ≠ k → get_latency table j k = none) →
      ∀ best, bestInfGo k costs table l best = best by
    exact hgen cands h _
  intro l
  induction l with
  | nil => intro _ best; rfl
  | cons j rest ih =>
    intro hl best
    by_cases hj : j = k
    · simp only [bestInfGo, if_pos hj]
      exact ih (fun t ht => hl t (List.mem_cons_of_mem j ht)) best
    · have hnone := hl j (List.mem_cons_self j rest) hj
      simp only [bestInfGo, if_neg hj, hnone]
      exact ih (fun t ht => hl t (List.mem_cons_of_mem j ht)) best

/-- Witness for C5 at a buyer with a single latency-less foreign candidate. -/
theorem c5_fallback_amended_w :
    bestInf "KAZ" ["XYZ"] (fun _ => 2) [] =
      ("KAZ", domInfCost "KAZ" (fun _ => 2) []) :=
  c5_fallback_amended "KAZ" ["XYZ"] (fun _ => 2) [] (by decide)

theorem solve_components (mk : MarketIn) (s0 : Seller) (rest : List Seller)
    (hstack : mk.stack = s0 :: rest) :
    solve_capacity_equilibrium mk =
      some ⟨((loopGo mk 30 ⟨s0.cost, 0, 0⟩).1).p, ((loopGo mk 30 ⟨s0.cost, 0, 0⟩).1).m,
        greedyFill mk.sanctioned ((loopGo mk 30 ⟨s0.cost, 0, 0⟩).1).p mk.stack
          ((loopGo mk 30 ⟨s0.cost, 0, 0⟩).1).q,
        hhiOf (greedyFill mk.sanctioned ((loopGo mk 30 ⟨s0.cost, 0, 0⟩).1).p mk.stack
          ((loopGo mk 30 ⟨s0.cost, 0, 0⟩).1).q),
        shadowVals mk.sanctioned ((loopGo mk 30 ⟨s0.cost, 0, 0⟩).1).p
          (greedyFill mk.sanctioned ((loopGo mk 30 ⟨s0.cost, 0, 0⟩).1).p mk.stack
            ((loopGo mk 30 ⟨s0.cost, 0, 0⟩).1).q) mk.stack,
        lsCapOf mk.costs ((loopGo mk 30 ⟨s0.cost, 0, 0⟩).1).p,
        (greedyFill mk.sanctioned ((loopGo mk 30 ⟨s0.cost, 0, 0⟩).1).p mk.stack
          ((loopGo mk 30 ⟨s0.cost, 0, 0⟩).1).q).length⟩ := by
  rw [solve_capacity_equilibrium, hstack]

theorem shadowVals_lookup (sanc : List String) (p : ℚ) (sh : List (String × ℚ)) :
    ∀ (stack : List Seller) (s : Seller), (stack.map (fun t => t.iso)).Nodup →
      s ∈ stack → s.iso ∉ sanc → s.cost < p →
      s.cap * ALPHA * (99/100) ≤ (alookup sh s.iso).getD 0 →
      alookup (shadowVals sanc p sh stack) s.iso = some (p - s.cost) := by
  intro stack
  induction stack with
  | nil => intro s _ hmem; exact absurd hmem (List.not_mem_nil s)
  | cons t rest ih =>
    intro s hnd hmem hsanc hlt hbind
    have hnd2 : (t.iso ∉ rest.map (fun u => u.iso)) ∧
        (rest.map (fun u => u.iso)).Nodup := by
      rw [List.map_cons, List.nodup_cons] at hnd
      exact hnd
    rcases List.mem_cons.mp hmem with rfl | hmem2
    · simp only [shadowVals, if_neg hsanc, if_pos hlt, if_pos hbind, alookup, if_true,
        eq_self_iff_true]
    · have hne : t.iso ≠ s.iso := by
        intro he
        exact hnd2.1 (he ▸ List.mem_map_of_mem (fun u => u.iso) hmem2)
      have hrec := ih s hnd2.2 hmem2 hsanc hlt hbind
      by_cases hts : t.iso ∈ sanc
      · simp only [shadowVals, if_pos hts]
        exact hrec
      · by_cases htl : t.cost < p
        · by_cases htb : t.cap * ALPHA * (99/100) ≤ (alookup sh t.iso).getD 0
          · simp only [shadowVals, if_neg hts, if_pos htl, if_pos htb, alookup, if_neg hne]
            exact hrec
          · simp only [shadowVals, if_neg hts, if_pos htl, if_neg htb]
            exact hrec
        · simp only [shadowVals, if_neg hts, if_neg htl]
          exact hrec

theorem shadowVals_entries (sanc : List String) (p : ℚ) (sh : List (String × ℚ)) :
    ∀ (stack : List Seller) (e : String × ℚ), e ∈ shadowVals sanc p sh stack →
      ∃ t, t ∈ stack ∧ t.iso = e.1 ∧ e.2 = p - t.cost := by
  intro stack
  induction stack with
  | nil => intro e he; simp [shadowVals] at he
  | cons t rest ih =>
    intro e he
    have lift : (∃ u, u ∈ rest ∧ u.iso = e.1 ∧ e.2 = p - u.cost) →
        ∃ u, u ∈ t :: rest ∧ u.iso = e.1 ∧ e.2 = p - u.cost := by
      rintro ⟨u, hu, h1, h2⟩
      exact ⟨u, List.mem_cons_of_mem t hu, h1, h2⟩
    by_cases hts : t.iso ∈ sanc
    · rw [shadowVals, if_pos hts] at he
      exact lift (ih e he)
    · by_cases htl : t.cost < p
      · by_cases htb : t.cap * ALPHA * (99/100) ≤ (alookup sh t.iso).getD 0
        · rw [shadowVals, if_neg hts, if_pos htl, if_pos htb] at he
          rcases List.mem_cons.mp he with rfl | he2
          · exact ⟨t, List.mem_cons_self t rest, rfl, rfl⟩
          · exact lift (ih e he2)
        · rw [shadowVals, if_neg hts, if_pos htl, if_neg htb] at he
          exact lift (ih e he)
      · rw [shadowVals, if_neg hts, if_neg htl] at he
        exact lift (ih e he)

/-- C6 counterexample: in `mktSat` the only seller "A" is allocated
exactly its full available capacity `ALPHA * 20 = 10` (binding, within any
tolerance), and it is the marginal seller (its cost equals the clearing
price), yet the shadow-value report `mu` is empty: the seller is not
reported with shadow value `p_T - c = 0`, because the code only reports
sellers with cost strictly below the clearing price. -/
theorem c6_shadow_counterexample :
    solve_capacity_equilibrium mktSat = some rSat ∧
    alookup rSat.shares "A" = some (ALPHA * 20) ∧
    rSat.mu = [] := by decide

/-- C6 amended: every non-excluded seller whose cost is strictly below the
clearing price and whose allocated share reaches the code's tolerance
(99 percent) of its available bulk capacity `cap * ALPHA` is reported with
shadow value exactly `clearing price - own cost`; and every reported
shadow value equals `clearing price - own cost` of the corresponding
seller.  The marginal seller itself (cost equal to the clearing price) is
never reported, even when fully allocated. -/
theorem c6_shadow_amended (mk : MarketIn) (r : EqResult) (s : Seller)
    (s0 : Seller) (rest : List Seller) (hstack : mk.stack = s0 :: rest)
    (hr : solve_capacity_equilibrium mk = some r)
    (hnd : (mk.stack.map (fun t => t.iso)).Nodup)
    (hmem : s ∈ mk.stack) (hsanc : s.iso ∉ mk.sanctioned)
    (hlt : s.cost < r.p_T)
    (hbind : s.cap * ALPHA * (99/100) ≤ (alookup r.shares s.iso).getD 0) :
    alookup r.mu s.iso = some (r.p_T - s.cost) ∧
    ∀ e ∈ r.mu, ∃ t, t ∈ mk.stack ∧ t.iso = e.1 ∧ e.2 = r.p_T - t.cost := by
  have hcomp := solve_components mk s0 rest hstack
  rw [hr] at hcomp
  have hre := Option.some.inj hcomp
  subst hre
  exact ⟨shadowVals_lookup _ _ _ _ s hnd hmem hsanc hlt hbind,
    fun e he => shadowVals_entries _ _ _ _ e he⟩

/-- Witness for C6 at the specification's concrete scenario 1, where the
capacity of seller "A" binds and its shadow value is 1/5 (= 0.20). -/
theorem c6_shadow_amended_w :
    alookup rScn1.mu "A" = some (rScn1.p_T - 1) :=
  (c6_shadow_amended mktScn1 rScn1 ⟨"A", 1, 2⟩ ⟨"A", 1, 2⟩ [⟨"B", 6/5, 4⟩] rfl
    (by decide) (by decide) (by decide) (by decide) (by decide) (by decide)).1

theorem greedyFill_pos (sanc : List String) (p : ℚ) :
    ∀ (stack : List Seller) (rem : ℚ) (e : String × ℚ),
      e ∈ greedyFill sanc p stack rem → 0 < e.2 := by
  intro stack
  induction stack with
  | nil => intro rem e he; simp [greedyFill] at he
  | cons s rest ih =>
    intro rem e he
    by_cases hs : s.iso ∈ sanc
    · rw [greedyFill, if_pos hs] at he
      exact ih rem e he
    · by_cases hc : p < s.cost
      · rw [greedyFill, if_neg hs, if_pos hc] at he
        exact absurd he (List.not_mem_nil e)
      · by_cases hca : 0 < min (s.cap * ALPHA) rem
        · by_cases hst : rem - min (s.cap * ALPHA) rem ≤ 0
          · rw [greedyFill, if_neg hs, if_neg hc] at he
            simp only [if_pos hca, if_pos hst, List.mem_singleton] at he
            rw [he]
            exact hca
          · rw [greedyFill, if_neg hs, if_neg hc] at he
            simp only [if_pos hca, if_neg hst, List.mem_cons] at he
            rcases he with rfl | he2
            · exact hca
            · exact ih _ e he2
        · by_cases hr0 : rem ≤ 0
          · rw [greedyFill, if_neg hs, if_neg hc] at he
            simp only [if_neg hca, if_pos hr0] at he
            exact absurd he (List.not_mem_nil e)
          · rw [greedyFill, if_neg hs, if_neg hc] at he
            simp only [if_neg hca, if_neg hr0] at he
            exact ih rem e he

theorem greedyFill_bound (sanc : List String) (p : ℚ) :
    ∀ (stack : List Seller) (rem : ℚ) (e : String × ℚ),
      e ∈ greedyFill sanc p stack rem →
      ∃ s, s ∈ stack ∧ s.iso = e.1 ∧ e.2 ≤ s.cap * ALPHA := by
  intro stack
  induction stack with
  | nil => intro rem e he; simp [greedyFill] at he
  | cons s rest ih =>
    intro rem e he
    have lift : (∃ u, u ∈ rest ∧ u.iso = e.1 ∧ e.2 ≤ u.cap * ALPHA) →
        ∃ u, u ∈ s :: rest ∧ u.iso = e.1 ∧ e.2 ≤ u.cap * ALPHA := by
      rintro ⟨u, hu, h1, h2⟩
      exact ⟨u, List.mem_cons_of_mem s hu, h1, h2⟩
    by_cases hs : s.iso ∈ sanc
    · rw [greedyFill, if_pos hs] at he
      exact lift (ih rem e he)
    · by_cases hc : p < s.cost
      · rw [greedyFill, if_neg hs, if_pos hc] at he
        exact absurd he (List.not_mem_nil e)
      · by_cases hca : 0 < min (s.cap * ALPHA) rem
        · by_cases hst : rem - min (s.cap * ALPHA) rem ≤ 0
          · rw [greedyFill, if_neg hs, if_neg hc] at he
            simp only [if_pos hca, if_pos hst, List.mem_singleton] at he
            rw [he]
            exact ⟨s, List.mem_cons_self s rest, rfl, min_le_left _ _⟩
          · rw [greedyFill, if_neg hs, if_neg hc] at he
            simp only [if_pos hca, if_neg hst, List.mem_cons] at he
            rcases he with rfl | he2
            · exact ⟨s, List.mem_cons_self s rest, rfl, min_le_left _ _⟩
            · exact lift (ih _ e he2)
        · by_cases hr0 : rem ≤ 0
          · rw [greedyFill, if_neg hs, if_neg hc] at he
            simp only [if_neg hca, if_pos hr0] at he
            exact absurd he (List.not_mem_nil e)
          · rw [greedyFill, if_neg hs, if_neg hc] at he
            simp only [if_neg hca, if_neg hr0] at he
            exact lift (ih rem e he)

theorem list_sum_div (T : ℚ) : ∀ l : List ℚ, (l.map (fun x => x / T)).sum = l.sum / T := by
  intro l
  induction l with
  | nil => simp
  | cons a t ih => simp [ih, add_div]

theorem list_sum_sq_le : ∀ l : List ℚ, (∀ x ∈ l, 0 ≤ x) →
    (l.map (fun x => x ^ 2)).sum ≤ l.sum ^ 2 := by
  intro l
  induction l with
  | nil => simp
  | cons a t ih =>
    intro h
    have ha : 0 ≤ a := h a (List.mem_cons_self a t)
    have ht : ∀ x ∈ t, 0 ≤ x := fun x hx => h x (List.mem_cons_of_mem a hx)
    have hts : 0 ≤ t.sum := List.sum_nonneg ht
    have hih := ih ht
    simp only [List.map_cons, List.sum_cons]
    nlinarith [hih, ha, hts]

theorem list_sum_sq_lt : ∀ l : List ℚ, (∀ x ∈ l, 0 < x) → 2 ≤ l.length →
    (l.map (fun x => x ^ 2)).sum < l.sum ^ 2 := by
  intro l
  match l with
  | [] => intro _ hlen; simp at hlen
  | [a] => intro _ hlen; simp at hlen
  | a :: b :: t =>
    intro h _
    have ha : 0 < a := h a (List.mem_cons_self a (b :: t))
    have hbt : ∀ x ∈ b :: t, 0 < x := fun x hx => h x (List.mem_cons_of_mem a hx)
    have hts : 0 < (b :: t).sum := List.sum_pos (b :: t) hbt (List.cons_ne_nil b t)
    have hle := list_sum_sq_le (b :: t) (fun x hx => le_of_lt (hbt x hx))
    simp only [List.map_cons, List.sum_cons] at hle hts ⊢
    nlinarith [hle, ha, hts]

theorem hhiOf_props (sh : List (String × ℚ)) (hpos : ∀ e ∈ sh, 0 < e.2) :
    (0 < hhiOf sh ∧ hhiOf sh ≤ 1) ∧ (sh.length ≤ 1 → hhiOf sh = 1) ∧
    (2 ≤ sh.length → hhiOf sh < 1) := by
  match sh, hpos with
  | [], _ =>
    refine ⟨⟨?_, ?_⟩, fun _ => ?_, fun h2 => ?_⟩ <;> norm_num [hhiOf] at *
  | e :: t, hpos =>
    have hLpos : ∀ x ∈ (e :: t).map (fun u => u.2), 0 < x := by
      intro x hx
      obtain ⟨u, hu, rfl⟩ := List.mem_map.mp hx
      exact hpos u hu
    have hT : 0 < ((e :: t).map (fun u => u.2)).sum :=
      List.sum_pos _ hLpos (by simp)
    set T := ((e :: t).map (fun u => u.2)).sum with hTdef
    have hhi_eq : hhiOf (e :: t) = ((e :: t).map (fun u => (u.2 / T) ^ 2)).sum := by
      rw [hhiOf]
      simp only [← hTdef, if_pos hT]
    have hM : ((e :: t).map (fun u => u.2 / T)).sum = 1 := by
      have := list_sum_div T ((e :: t).map (fun u => u.2))
      rw [List.map_map] at this
      rw [show ((e :: t).map fun u => u.2 / T) =
          ((e :: t).map ((fun x => x / T) ∘ fun u => u.2)) from rfl, this,
        ← hTdef, div_self (ne_of_gt hT)]
    have hMpos : ∀ x ∈ (e :: t).map (fun u => u.2 / T), 0 < x := by
      intro x hx
      obtain ⟨u, hu, rfl⟩ := List.mem_map.mp hx
      exact div_pos (hpos u hu) hT
    have hsq : ((e :: t).map (fun u => (u.2 / T) ^ 2)).sum =
        (((e :: t).map (fun u => u.2 / T)).map (fun x => x ^ 2)).sum := by
      rw [List.map_map]
      rfl
    have hle1 : hhiOf (e :: t) ≤ 1 := by
      rw [hhi_eq, hsq]
      calc (((e :: t).map (fun u => u.2 / T)).map (fun x => x ^ 2)).sum
          ≤ ((e :: t).map (fun u => u.2 / T)).sum ^ 2 :=
            list_sum_sq_le _ (fun x hx => le_of_lt (hMpos x hx))
        _ = 1 := by rw [hM]; norm_num
    have hpos1 : 0 < hhiOf (e :: t) := by
      rw [hhi_eq]
      simp only [List.map_cons, List.sum_cons]
      have h1 : 0 < (e.2 / T) ^ 2 := pow_pos (div_pos (hpos e (List.mem_cons_self e t)) hT) 2
      have h2 : 0 ≤ (t.map (fun u => (u.2 / T) ^ 2)).sum := by
        apply List.sum_nonneg
        intro x hx
        obtain ⟨u, _, rfl⟩ := List.mem_map.mp hx
        positivity
      linarith
    refine ⟨⟨hpos1, hle1⟩, fun hlen => ?_, fun h2 => ?_⟩
    · match t, hpos, hlen with
      | [], hpos, _ =>
        have he2 : 0 < e.2 := hpos e (List.mem_cons_self e [])
        rw [hhiOf]
        simp only [List.map_cons, List.map_nil, List.sum_cons, List.sum_nil, add_zero,
          if_pos he2]
        rw [div_self (ne_of_gt he2)]
        norm_num
      | f :: t2, _, hlen => simp at hlen
    · rw [hhi_eq, hsq]
      calc (((e :: t).map (fun u => u.2 / T)).map (fun x => x ^ 2)).sum
          < ((e :: t).map (fun u => u.2 / T)).sum ^ 2 := by
            apply list_sum_sq_lt _ hMpos
            simpa using h2
        _ = 1 := by rw [hM]; norm_num

/-- C7 counterexample: the zero-demand market `mktZeroD` has no seller
with positive allocation (zero exporters), yet the concentration index
defaults to 1, refuting the claim that the index equals 1 exactly when
exactly one seller has positive allocation. -/
theorem c7_hhi_counterexample :
    solve_capacity_equilibrium mktZeroD = some rZeroD ∧
    rZeroD.hhi = 1 ∧ rZeroD.nExporters = 0 := by decide

/-- C7 amended: for every solver run the concentration index lies in
(0, 1]; it equals 1 whenever at most one seller has positive allocation
(including the degenerate zero-allocation case, where the code defaults it
to 1), and it is strictly below 1 exactly when two or more sellers are
active — so activating a second seller strictly decreases it from 1. -/
theorem c7_hhi_amended (mk : MarketIn) (r : EqResult) (s0 : Seller) (rest : List Seller)
    (hstack : mk.stack = s0 :: rest) (hr : solve_capacity_equilibrium mk = some r) :
    (0 < r.hhi ∧ r.hhi ≤ 1) ∧ (r.nExporters ≤ 1 → r.hhi = 1) ∧
    (2 ≤ r.nExporters → r.hhi < 1) := by
  have hcomp := solve_components mk s0 rest hstack
  rw [hr] at hcomp
  have hre := Option.some.inj hcomp
  subst hre
  exact hhiOf_props _ (greedyFill_pos _ _ _ _)

/-- Witness for C7 at the specification's concrete scenario 1 (two active
sellers, concentration 5/9 strictly between 0 and 1). -/
theorem c7_hhi_amended_w : 0 < rScn1.hhi ∧ rScn1.hhi < 1 := by
  have h := c7_hhi_amended mktScn1 rScn1 ⟨"A", 1, 2⟩ [⟨"B", 6/5, 4⟩] rfl (by decide)
  exact ⟨h.1.1, h.2.2 (by decide)⟩

/-- C8: in every run of the market clearer with nonnegative capacity
ceilings, each entry of the greedy cheapest-first allocation belongs to a
seller of the stack and never exceeds that seller's capacity ceiling. -/
theorem c8_capacity_bound (mk : MarketIn) (r : EqResult) (s0 : Seller) (rest : List Seller)
    (hstack : mk.stack = s0 :: rest) (hr : solve_capacity_equilibrium mk = some r)
    (hcap : ∀ s ∈ mk.stack, 0 ≤ s.cap) :
    ∀ e ∈ r.shares, ∃ s, s ∈ mk.stack ∧ s.iso = e.1 ∧ e.2 ≤ s.cap := by
  have hcomp := solve_components mk s0 rest hstack
  rw [hr] at hcomp
  have hre := Option.some.inj hcomp
  subst hre
  intro e he
  obtain ⟨s, hs, hiso, hb⟩ := greedyFill_bound _ _ _ _ e he
  refine ⟨s, hs, hiso, le_trans hb ?_⟩
  have hc := hcap s hs
  rw [show ALPHA = 1/2 from rfl]
  linarith

/-- Witness for C8: in scenario 1 seller "A"'s allocated share 1 is below
its capacity ceiling 2. -/
theorem c8_capacity_bound_w : (1 : ℚ) ≤ 2 := by
  have h := c8_capacity_bound mktScn1 rScn1 ⟨"A", 1, 2⟩ [⟨"B", 6/5, 4⟩] rfl
    (by decide) (by decide)
  obtain ⟨s, hs, hiso, hb⟩ := h ("A", 1) (by decide)
  have hs2 : s = ⟨"A", 1, 2⟩ ∨ s = ⟨"B", 6/5, 4⟩ := by
    simpa [mktScn1] using hs
  rcases hs2 with rfl | rfl
  · exact hb
  · exact absurd hiso (by decide)

/-- C9 counterexample: a record with negative electricity price (-1),
negative temperature (-5) and a zero utilization override is not rejected
by `recompute_costs`: the run with `gpu_util = 0` silently substitutes the
global default (identical output to passing no override at all) and the
offending record still produces a cost entry, refuting the claim that the
Cost Model signals an invalid-input error for such inputs. -/
theorem c9_validation_counterexample :
    recompute_costs [⟨"XX", -1, -5, 0⟩] none (some 0) 0 none [] =
      recompute_costs [⟨"XX", -1, -5, 0⟩] none none 0 none [] ∧
    (recompute_costs [⟨"XX", -1, -5, 0⟩] none (some 0) 0 none []).length = 1 := by decide

/-- C9 amended: the Cost Model performs no input validation at all: every
record, with negative electricity price or temperature included, produces
a cost entry (the output has one entry per input record); a zero (falsy)
`gpu_util` or `gpu_price` override is silently replaced by the global
default rather than rejected; and the v3 per-country loop likewise applies
its formula to a negative electricity price, reducing at temperature -5 to
the base-PUE formula with no error signalled. -/
theorem c9_validation_amended :
    (∀ (cal : List CalRow) (gp gu : Option ℚ) (d : ℚ) (cap : Option ℚ)
        (adj : List (String × ℚ)),
      (recompute_costs cal gp gu d cap adj).length = cal.length) ∧
    (∀ (cal : List CalRow) (gp : Option ℚ) (d : ℚ) (cap : Option ℚ)
        (adj : List (String × ℚ)),
      recompute_costs cal gp (some 0) d cap adj = recompute_costs cal gp none d cap adj) ∧
    (∀ (cal : List CalRow) (gu : Option ℚ) (d : ℚ) (cap : Option ℚ)
        (adj : List (String × ℚ)),
      recompute_costs cal (some 0) gu d cap adj = recompute_costs cal none gu d cap adj) ∧
    c_total_v3 (-1) (-5) 1 =
      PUE_BASE * GPU_TDP_KW * (-1) + R_HARDWARE + GPU_TDP_W * 1 / (DC_LIFE_YR * H_YR) := by
  refine ⟨?_, ?_, ?_, by decide⟩
  · intro cal gp gu d cap adj
    simp [recompute_costs]
  · intro cal gp d cap adj
    simp [recompute_costs, pyOr]
  · intro cal gu d cap adj
    simp [recompute_costs, pyOr]

theorem findMarginalGo_scale (sanc : List String) (q : ℚ) :
    ∀ (stack : List Seller) (cum : ℚ) (idx : ℕ),
      findMarginalGo sanc q stack cum idx =
        findMarginalRawGo sanc q (stack.map scaleCap) cum idx := by
  intro stack
  induction stack with
  | nil => intro cum idx; rfl
  | cons s rest ih =>
    intro cum idx
    by_cases hs : s.iso ∈ sanc
    · simp only [List.map_cons, findMarginalGo, findMarginalRawGo, scaleCap, if_pos hs]
      exact ih cum (idx + 1)
    · by_cases hq : q ≤ cum + s.cap * ALPHA ∧ 0 < q
      · simp only [List.map_cons, findMarginalGo, findMarginalRawGo, scaleCap,
          if_neg hs, if_pos hq]
      · simp only [List.map_cons, findMarginalGo, findMarginalRawGo, scaleCap,
          if_neg hs, if_neg hq]
        exact ih (cum + s.cap * ALPHA) (idx + 1)

theorem greedyFill_scale (sanc : List String) (p : ℚ) :
    ∀ (stack : List Seller) (rem : ℚ),
      greedyFill sanc p stack rem = greedyFillRaw sanc p (stack.map scaleCap) rem := by
  intro stack
  induction stack with
  | nil => intro rem; rfl
  | cons s rest ih =>
    intro rem
    by_cases hs : s.iso ∈ sanc
    · simp only [List.map_cons, greedyFill, greedyFillRaw, scaleCap, if_pos hs]
      exact ih rem
    · by_cases hc : p < s.cost
      · simp only [List.map_cons, greedyFill, greedyFillRaw, scaleCap, if_neg hs, if_pos hc]
      · simp only [List.map_cons, greedyFill, greedyFillRaw, scaleCap, if_neg hs, if_neg hc]
        by_cases hca : 0 < min (s.cap * ALPHA) rem
        · by_cases hst : rem - min (s.cap * ALPHA) rem ≤ 0
          · simp only [if_pos hca, if_pos hst]
          · simp only [if_pos hca, if_neg hst, ih (rem - min (s.cap * ALPHA) rem)]
        · by_cases hr0 : rem ≤ 0
          · simp only [if_neg hca, if_pos hr0]
          · simp only [if_neg hca, if_neg hr0]
            exact ih rem

/-- C10: only the fraction `ALPHA` (= 1/2, the bulk demand-share constant)
of each seller's capacity ceiling is available to the bulk class:
every allocated share is bounded by `ALPHA` times the originating seller's
ceiling regardless of export demand, and both the marginal-seller walk and
the greedy fill coincide with their raw-capacity variants run on the stack
with every ceiling pre-scaled by `ALPHA`. -/
theorem c10_alpha_scaling :
    ALPHA = 1/2 ∧
    (∀ (sanc : List String) (p : ℚ) (stack : List Seller) (rem : ℚ) (e : String × ℚ),
      e ∈ greedyFill sanc p stack rem →
      ∃ s, s ∈ stack ∧ s.iso = e.1 ∧ e.2 ≤ ALPHA * s.cap) ∧
    (∀ (sanc : List String) (q : ℚ) (stack : List Seller),
      findMarginalGo sanc q stack 0 0 = findMarginalRawGo sanc q (stack.map scaleCap) 0 0) ∧
    (∀ (sanc : List String) (p : ℚ) (stack : List Seller) (rem : ℚ),
      greedyFill sanc p stack rem = greedyFillRaw sanc p (stack.map scaleCap) rem) := by
  refine ⟨rfl, ?_, ?_, ?_⟩
  · intro sanc p stack rem e he
    obtain ⟨s, hs, hiso, hb⟩ := greedyFill_bound sanc p stack rem e he
    exact ⟨s, hs, hiso, by rw [mul_comm]; exact hb⟩
  · intro sanc q stack
    exact findMarginalGo_scale sanc q stack 0 0
  · intro sanc p stack rem
    exact greedyFill_scale sanc p stack rem

/-- Witness for C10: a seller with ceiling 2 facing remaining demand 5 is
allocated exactly its available bulk capacity `ALPHA * 2 = 1`. -/
theorem c10_alpha_scaling_w : ALPHA = 1/2 ∧ (1 : ℚ) ≤ ALPHA * 2 := by
  have h := c10_alpha_scaling
  refine ⟨h.1, ?_⟩
  obtain ⟨s, hs, hiso, hb⟩ := h.2.1 [] 1 [⟨"A", 1, 2⟩] 5 ("A", 1) (by decide)
  have hs2 : s = ⟨"A", 1, 2⟩ := by simpa using hs
  rw [hs2] at hb
  exact hb
